import Mathlib

/-!
Verification development for the terminal backend in
src/doomgeneric_ascii.c (doom-ascii).

The file shallowly embeds the two core components of that source file:

* the frame encoder `DG_DrawFrame` (pixel grid to a stream of color
  escapes and doubled brightness glyphs, with a per-call color state);
* the input event deriver `DG_ReadInput` (raw byte burst to held-key
  sequence via `convertToDoomKey`, then a press pass and a release pass
  diffing the current held-key sequence against the previous one).

Machine integers are modelled as `Nat` with explicit truncation:
`char` values are bytes (`% 256`), the C sign extension of `char` to
`int` is made explicit where the source performs integer promotion,
and the `uint16_t` event words are truncated with `% 65536`.
-/

/-- Modelled from the spec: the key codes come from doomkeys.h, which is
not part of the given source tree.  The spec names the decoded logical
keys (enter, escape, the four arrows, fire); the concrete values below
are the standard doomgeneric ones.  Every claim settled here depends
only on these being fixed nonzero byte values. -/
def KEY_ENTER : Nat := 13

/-- Modelled from the spec: see KEY_ENTER. -/
def KEY_ESCAPE : Nat := 27

/-- Modelled from the spec: see KEY_ENTER. -/
def KEY_UPARROW : Nat := 173

/-- Modelled from the spec: see KEY_ENTER. -/
def KEY_DOWNARROW : Nat := 175

/-- Modelled from the spec: see KEY_ENTER. -/
def KEY_RIGHTARROW : Nat := 174

/-- Modelled from the spec: see KEY_ENTER. -/
def KEY_LEFTARROW : Nat := 172

/-- Modelled from the spec: see KEY_ENTER. -/
def KEY_FIRE : Nat := 163

/-- `INPUT_BUFFER_LEN` from the source: the raw and held-key buffers hold
16 bytes, of which at most 15 are payload (the last is the terminator). -/
def INPUT_BUFFER_LEN : Nat := 16

/-- `EVENT_BUFFER_LEN (INPUT_BUFFER_LEN * 2u - 1u)` from the source. -/
def EVENT_BUFFER_LEN : Nat := 31

/-- C `tolower` in the default locale, applied to a byte value: only the
ASCII uppercase letters are shifted. -/
def tolowerByte (b : Nat) : Nat := if 65 ≤ b ∧ b ≤ 90 then b + 32 else b

/-- `convertToDoomKey` (source lines 325-359).  The C function reads a
cursor into a NUL-terminated byte buffer and advances it; here the
argument is the byte list from the cursor on, and the result is the
decoded key together with the remaining list.  Byte 10 is `'\012'`,
27 is `'\033'`, 91 is `'['`, 65-68 are `'A'..'D'`, 32 is `' '`.
The C `switch` on the byte after `'\033'` falls through from
`case '['` into `default: return KEY_ESCAPE;` when the third byte is
not one of `A`/`B`/`C`/`D`, so in that case the bracket is consumed but
the third byte is not.  An empty list stands for the cursor resting on
the buffer's NUL terminator; the callers never pass it. -/
def convertToDoomKey : List Nat → Nat × List Nat
  | [] => (0, [])
  | b :: rest =>
    if b = 10 then (KEY_ENTER, rest)
    else if b = 27 then
      match rest with
      | [] => (KEY_ESCAPE, [])
      | c1 :: rest1 =>
        if c1 = 91 then
          match rest1 with
          | [] => (KEY_ESCAPE, [])
          | c2 :: rest2 =>
            if c2 = 65 then (KEY_UPARROW, rest2)
            else if c2 = 66 then (KEY_DOWNARROW, rest2)
            else if c2 = 67 then (KEY_RIGHTARROW, rest2)
            else if c2 = 68 then (KEY_LEFTARROW, rest2)
            else (KEY_ESCAPE, c2 :: rest2)
        else (KEY_ESCAPE, c1 :: rest1)
    else if b = 32 then (KEY_FIRE, rest)
    else (tolowerByte b, rest)

/-- The decode loop of `DG_ReadInput` (source lines 421-424):
`while (*raw_input_buf_loc) *input_buf_loc++ = convertToDoomKey(&raw_input_buf_loc);`
The loop's termination metric is the length of the unread remainder,
which every `convertToDoomKey` call strictly shrinks; the recursion is
made structural on a fuel argument that the caller sets to the initial
buffer length, which suffices (proved below as fuel stability). -/
def decodeKeysAux : Nat → List Nat → List Nat
  | 0, _ => []
  | _ + 1, [] => []
  | fuel + 1, b :: rest =>
    if b = 0 then []
    else
      (convertToDoomKey (b :: rest)).1 ::
        decodeKeysAux fuel (convertToDoomKey (b :: rest)).2

/-- The held-key sequence (`input_buffer`) built by the decode loop of
`DG_ReadInput` from the raw byte burst. -/
def decodeKeys (buf : List Nat) : List Nat := decodeKeysAux buf.length buf

/-- The 32-bit two's-complement bit pattern of `(int)(char)b` for a byte
`b`: C integer promotion sign-extends `char` values 128-255. -/
def signExt (k : Nat) : Nat :=
  if k % 256 < 128 then k % 256 else 4294967040 + k % 256

/-- The pressed-event word `*event_buf_loc++ = 0x0100 | input_buffer[i];`
(source line 440): the held key is a `char`, promoted (with sign
extension) to `int`, OR-ed with 0x0100, and truncated by the `uint16_t`
store. -/
def pressEvent (k : Nat) : Nat := (256 ||| signExt k) % 65536

/-- The released-event word `*event_buf_loc++ = 0xFF & prev_input_buffer[i];`
(source line 451). -/
def releaseEvent (k : Nat) : Nat := signExt k &&& 255

/-- `*doomKey = *event_buf_loc & 0xFF;` in `DG_GetKey`: the key code
carried by an event word. -/
def keyOf (e : Nat) : Nat := e &&& 255

/-- `*pressed = *event_buf_loc >> 8;` in `DG_GetKey`: an event word is a
press exactly when its high byte is nonzero. -/
def isPress (e : Nat) : Bool := e >>> 8 != 0

/-- The press pass of `DG_ReadInput` (source lines 428-443): for each key
of the current held-key sequence, skip it if the same key occurs again
later in the sequence, skip it if it occurs in the previous sequence,
otherwise emit a pressed-event word. -/
def pressPass : List Nat → List Nat → List Nat
  | [], _prev => []
  | k :: rest, prev =>
    if k ∈ rest then pressPass rest prev
    else if k ∈ prev then pressPass rest prev
    else pressEvent k :: pressPass rest prev

/-- The release pass of `DG_ReadInput` (source lines 446-454): for each
key of the previous held-key sequence that does not occur in the current
one, emit a released-event word. -/
def releasePass : List Nat → List Nat → List Nat
  | [], _cur => []
  | k :: rest, cur =>
    if k ∈ cur then releasePass rest cur
    else releaseEvent k :: releasePass rest cur

/-- The full event queue built by one `DG_ReadInput` poll: the press pass
writes first, then the release pass appends. -/
def events (prev cur : List Nat) : List Nat :=
  pressPass cur prev ++ releasePass prev cur

/-- `const char grad[] = " .-+1x@";` (source line 98) as its byte values,
including the implicit terminating NUL: the C array has 8 elements. -/
def grad : List Nat := [32, 46, 45, 43, 49, 120, 64, 0]

/-- `#define GRAD_LEN 8u` (source line 99). -/
def GRAD_LEN : Nat := 8

/-- The glyph index `(pixel->r + pixel->g + pixel->b) * GRAD_LEN / 766u`
(source line 282). -/
def glyphIndex (r g b : Nat) : Nat := (r + g + b) * GRAD_LEN / 766

/-- The glyph byte `grad[...]` looked up at the glyph index
(source line 282). -/
def glyphByte (r g b : Nat) : Nat := grad.getD (glyphIndex r g b) 0

/-- `struct color_t` (source lines 103-108): four 8-bit fields packed
into a `uint32_t`, lowest byte first. -/
structure color_t where
  b : Nat
  g : Nat
  r : Nat
  a : Nat
deriving DecidableEq, Repr

/-- The low 24 bits (r, g, b) of a pixel's 32-bit word. -/
def rgb24 (p : color_t) : Nat :=
  (p.r % 256) * 65536 + (p.g % 256) * 256 + p.b % 256

/-- `*(uint32_t *)pixel`: the pixel's packed 32-bit word, alpha in the
top byte. -/
def pixelWord (p : color_t) : Nat := (p.a % 256) * 16777216 + rgb24 p

/-- The color-change test `(color ^ *(uint32_t *)pixel) & 0x00FFFFFF`
of `DG_DrawFrame` (source line 268), nonzero exactly when the pixel's
RGB differs from the tracked color state in some channel. -/
def colorDiff (color : Nat) (p : color_t) : Bool :=
  (color ^^^ pixelWord p) &&& 16777215 != 0

/-- One element of the emitted frame byte stream.  A `colorEscape` token
stands for the `ESC [ <code> m` run emitted when the color-change test
fires; it records the triggering pixel's channel bytes (the SGR payload
itself comes from the floating-point HSV classification `rgb_to_color`,
which no claim inspects and which is not modelled).  A `glyph` token is
one written glyph byte, `newline` the per-row `'\n'`, `reset` the final
`ESC [ 0 m`. -/
inductive Token where
  | colorEscape : Nat → Nat → Nat → Token
  | glyph : Nat → Token
  | newline : Token
  | reset : Token
deriving DecidableEq, Repr

/-- The per-pixel body of the `DG_DrawFrame` loops (source lines 268-285):
if the color-change test fires, emit a color escape and update the color
state to the pixel's full 32-bit word; then emit the brightness glyph
twice. -/
def drawPixel (color : Nat) (p : color_t) : List Token × Nat :=
  let g := Token.glyph (glyphByte (p.r % 256) (p.g % 256) (p.b % 256))
  if colorDiff color p then
    ([Token.colorEscape (p.r % 256) (p.g % 256) (p.b % 256), g, g], pixelWord p)
  else ([g, g], color)

/-- The inner (column) loop of `DG_DrawFrame`, threading the color state
across the pixels of one row. -/
def drawRow (color : Nat) : List color_t → List Token × Nat
  | [] => ([], color)
  | p :: ps =>
    let hd := drawPixel color p
    let tl := drawRow hd.2 ps
    (hd.1 ++ tl.1, tl.2)

/-- The outer (row) loop of `DG_DrawFrame`: each row's tokens followed by
a newline, with the color state threaded across rows. -/
def drawRows (color : Nat) : List (List color_t) → List Token × Nat
  | [] => ([], color)
  | r :: rs =>
    let hd := drawRow color r
    let tl := drawRows hd.2 rs
    (hd.1 ++ [Token.newline] ++ tl.1, tl.2)

/-- One `DG_DrawFrame` call (source lines 250-302) as the token stream it
writes into the output buffer.  The color state is the local
`uint32_t color = 0xFFFFFF00;`, re-initialized on every call; the frame
ends with the reset escape.  (The first-frame clear-screen `fputs` and
the cursor-home `fputs` happen outside the buffer and contain no SGR
color sequence, so they are not part of the stream.) -/
def DG_DrawFrame (rows : List (List color_t)) : List Token :=
  (drawRows 4294967040 rows).1 ++ [Token.reset]

/-- Whether a token is a color-escape sequence. -/
def isEsc : Token → Bool
  | Token.colorEscape _ _ _ => true
  | _ => false

/-- The number of color-escape sequences in an emitted token stream. -/
def countEsc (ts : List Token) : Nat := ts.countP isEsc

/-- The fields of the POSIX `struct termios` that `DG_ReadInput` touches
(source lines 371-387): the `ICANON` bit of `c_lflag`, `c_cc[VMIN]`,
`c_cc[VTIME]`; `other` stands for all remaining fields, which
`newt = oldt` copies unchanged. -/
structure termios where
  icanon : Bool
  vmin : Nat
  vtime : Nat
  other : Nat
deriving DecidableEq, Repr

/-- The altered mode `DG_ReadInput` installs: canonical mode disabled,
zero minimum characters, zero timeout, everything else as before. -/
def rawModeOf (t : termios) : termios :=
  { t with icanon := false, vmin := 0, vtime := 0 }

/-- How one `DG_ReadInput` poll ends: a normal return, or process
termination through `I_Error` (the `CALL` macro), each recording the
terminal mode left in effect. -/
inductive pollExit where
  | fatal : termios → pollExit
  | ok : termios → pollExit
deriving DecidableEq, Repr

/-- The terminal mode in effect when the poll returns or the process
terminates. -/
def modeAfter : pollExit → termios
  | .fatal m => m
  | .ok m => m

/-- The POSIX terminal-mode sequence of `DG_ReadInput` (source lines
371-387) with the outcome of each OS call made explicit: `tcgetattr`,
`tcsetattr(raw)`, `read`, `tcsetattr(old)`, `tcflush`, in source order.
A failed call triggers `I_Error` immediately (the `CALL` macro), which
terminates the process; a failed `tcsetattr` leaves the mode unchanged.
The mode is altered only by the successful `tcsetattr` calls. -/
def readInputPosix (t0 : termios)
    (getOk setRawOk readOk setOldOk flushOk : Bool) : pollExit :=
  if !getOk then .fatal t0
  else if !setRawOk then .fatal t0
  else if !readOk then .fatal (rawModeOf t0)
  else if !setOldOk then .fatal (rawModeOf t0)
  else if !flushOk then .fatal t0
  else .ok t0

/-! ### Helper lemmas about the event-word encoding -/

set_option maxRecDepth 4000 in
theorem pressEvent_eq (k : Nat) :
    pressEvent k = if k % 256 < 128 then 256 + k % 256 else 65280 + k % 256 := by
  have key : ∀ r < 256,
      (256 ||| (if r < 128 then r else 4294967040 + r)) % 65536 =
        if r < 128 then 256 + r else 65280 + r := by decide
  have hr : k % 256 < 256 := Nat.mod_lt _ (by norm_num)
  have := key (k % 256) hr
  simpa [pressEvent, signExt] using this

set_option maxRecDepth 4000 in
theorem releaseEvent_eq (k : Nat) : releaseEvent k = k % 256 := by
  have key : ∀ r < 256, ((if r < 128 then r else 4294967040 + r) &&& 255) = r := by
    decide
  have hr : k % 256 < 256 := Nat.mod_lt _ (by norm_num)
  have := key (k % 256) hr
  simpa [releaseEvent, signExt] using this

theorem and_mask24 (x : Nat) : x &&& 16777215 = x % 16777216 := by
  have h1 : (16777215 : Nat) = 2 ^ 24 - 1 := by norm_num
  have h2 : (16777216 : Nat) = 2 ^ 24 := by norm_num
  rw [h1, h2]
  apply Nat.eq_of_testBit_eq
  intro i
  rw [Nat.testBit_land, Nat.testBit_two_pow_sub_one, Nat.testBit_mod_two_pow,
    Bool.and_comm]

theorem and_mask8 (x : Nat) : x &&& 255 = x % 256 := by
  have h1 : (255 : Nat) = 2 ^ 8 - 1 := by norm_num
  have h2 : (256 : Nat) = 2 ^ 8 := by norm_num
  rw [h1, h2]
  apply Nat.eq_of_testBit_eq
  intro i
  rw [Nat.testBit_land, Nat.testBit_two_pow_sub_one, Nat.testBit_mod_two_pow,
    Bool.and_comm]

theorem keyOf_eq (e : Nat) : keyOf e = e % 256 := by
  rw [keyOf, and_mask8]

theorem isPress_eq (e : Nat) : isPress e = (e / 256 != 0) := by
  have : e >>> 8 = e / 256 := by
    rw [Nat.shiftRight_eq_div_pow]
  rw [isPress, this]

theorem keyOf_pressEvent {k : Nat} (hk : k < 256) : keyOf (pressEvent k) = k := by
  rw [keyOf_eq, pressEvent_eq]
  split_ifs <;> omega

theorem isPress_pressEvent (k : Nat) : isPress (pressEvent k) = true := by
  rw [isPress_eq, pressEvent_eq]
  split_ifs with h
  all_goals
    simp only [bne_iff_ne, ne_eq]
    omega

theorem keyOf_releaseEvent {k : Nat} (hk : k < 256) : keyOf (releaseEvent k) = k := by
  rw [keyOf_eq, releaseEvent_eq]
  omega

theorem isPress_releaseEvent (k : Nat) : isPress (releaseEvent k) = false := by
  rw [isPress_eq, releaseEvent_eq]
  simp only [bne_eq_false_iff_eq]
  omega

/-! ### Helper lemmas about the press and release passes -/

theorem mem_pressPass {e : Nat} :
    ∀ {cur prev : List Nat}, e ∈ pressPass cur prev →
      ∃ k, k ∈ cur ∧ k ∉ prev ∧ e = pressEvent k := by
  intro cur
  induction cur with
  | nil => intro prev h; simp [pressPass] at h
  | cons k rest ih =>
    intro prev h
    simp only [pressPass] at h
    split_ifs at h with h1 h2
    · obtain ⟨k', h1', h2', h3'⟩ := ih h
      exact ⟨k', List.mem_cons_of_mem _ h1', h2', h3'⟩
    · obtain ⟨k', h1', h2', h3'⟩ := ih h
      exact ⟨k', List.mem_cons_of_mem _ h1', h2', h3'⟩
    · rcases List.mem_cons.mp h with he | he
      · exact ⟨k, List.mem_cons_self _ _, h2, he⟩
      · obtain ⟨k', h1', h2', h3'⟩ := ih he
        exact ⟨k', List.mem_cons_of_mem _ h1', h2', h3'⟩

theorem mem_releasePass {e : Nat} :
    ∀ {prev cur : List Nat}, e ∈ releasePass prev cur →
      ∃ k, k ∈ prev ∧ k ∉ cur ∧ e = releaseEvent k := by
  intro prev
  induction prev with
  | nil => intro cur h; simp [releasePass] at h
  | cons k rest ih =>
    intro cur h
    simp only [releasePass] at h
    split_ifs at h with h1
    · obtain ⟨k', h1', h2', h3'⟩ := ih h
      exact ⟨k', List.mem_cons_of_mem _ h1', h2', h3'⟩
    · rcases List.mem_cons.mp h with he | he
      · exact ⟨k, List.mem_cons_self _ _, h1, he⟩
      · obtain ⟨k', h1', h2', h3'⟩ := ih he
        exact ⟨k', List.mem_cons_of_mem _ h1', h2', h3'⟩

theorem pressPass_length_le : ∀ (cur prev : List Nat),
    (pressPass cur prev).length ≤ cur.length := by
  intro cur
  induction cur with
  | nil => intro prev; simp [pressPass]
  | cons k rest ih =>
    intro prev
    simp only [pressPass]
    split_ifs
    all_goals
      have := ih prev
      simp only [List.length_cons]
      omega

theorem releasePass_length_le : ∀ (prev cur : List Nat),
    (releasePass prev cur).length ≤ prev.length := by
  intro prev
  induction prev with
  | nil => intro cur; simp [releasePass]
  | cons k rest ih =>
    intro cur
    simp only [releasePass]
    split_ifs
    all_goals
      have := ih cur
      simp only [List.length_cons]
      omega

/-! ### Helper lemmas about the color-change test -/

theorem xor_mod_two_pow (c w n : Nat) :
    (c ^^^ w) % 2 ^ n = c % 2 ^ n ^^^ w % 2 ^ n := by
  apply Nat.eq_of_testBit_eq
  intro i
  rw [Nat.testBit_mod_two_pow, Nat.testBit_xor, Nat.testBit_xor,
    Nat.testBit_mod_two_pow, Nat.testBit_mod_two_pow]
  by_cases hi : i < n <;> simp [hi]

theorem xor_low24_eq_zero (c w : Nat) :
    (c ^^^ w) &&& 16777215 = 0 ↔ c % 16777216 = w % 16777216 := by
  have h2 : (16777216 : Nat) = 2 ^ 24 := by norm_num
  rw [and_mask24, h2, xor_mod_two_pow]
  exact Nat.xor_eq_zero

theorem rgb24_lt (p : color_t) : rgb24 p < 16777216 := by
  unfold rgb24
  omega

theorem pixelWord_mod (p : color_t) : pixelWord p % 16777216 = rgb24 p := by
  have h := rgb24_lt p
  unfold pixelWord
  omega

theorem colorDiff_false_iff (c : Nat) (p : color_t) :
    colorDiff c p = false ↔ c % 16777216 = pixelWord p % 16777216 := by
  unfold colorDiff
  rw [bne_eq_false_iff_eq]
  exact xor_low24_eq_zero c (pixelWord p)

theorem colorDiff_self (p : color_t) : colorDiff (pixelWord p) p = false := by
  rw [colorDiff_false_iff]

theorem colorDiff_sentinel (p : color_t) :
    colorDiff 4294967040 p = true ↔ rgb24 p ≠ 16776960 := by
  rw [← not_iff_not, Bool.not_eq_true, colorDiff_false_iff, pixelWord_mod,
    not_not]
  norm_num
  exact eq_comm

/-! ### Helper lemmas about rendering an all-identical frame -/

theorem countEsc_append (ts us : List Token) :
    countEsc (ts ++ us) = countEsc ts + countEsc us := by
  unfold countEsc
  exact List.countP_append _ _ _

theorem countEsc_glyphs (x : Nat) :
    countEsc [Token.glyph x, Token.glyph x] = 0 := rfl

theorem countEsc_esc_glyphs (r g b x : Nat) :
    countEsc [Token.colorEscape r g b, Token.glyph x, Token.glyph x] = 1 := rfl

theorem countEsc_newline : countEsc [Token.newline] = 0 := rfl

theorem countEsc_reset : countEsc [Token.reset] = 0 := rfl

theorem countEsc_nil : countEsc [] = 0 := rfl

theorem drawRow_const (p : color_t) : ∀ ps : List color_t,
    (∀ q ∈ ps, q = p) →
    countEsc (drawRow (pixelWord p) ps).1 = 0 ∧
      (drawRow (pixelWord p) ps).2 = pixelWord p := by
  intro ps
  induction ps with
  | nil => intro _; exact ⟨countEsc_nil, rfl⟩
  | cons q ps ih =>
    intro h
    have hq : q = p := h q (List.mem_cons_self _ _)
    subst hq
    obtain ⟨ih1, ih2⟩ := ih fun q' hq' => h q' (List.mem_cons_of_mem _ hq')
    simp only [drawRow, drawPixel, colorDiff_self, Bool.false_eq_true,
      if_false]
    exact ⟨by rw [countEsc_append, ih1, countEsc_glyphs], ih2⟩

theorem drawRow_first (p : color_t) (hp : rgb24 p ≠ 16776960) :
    ∀ ps : List color_t, ps ≠ [] → (∀ q ∈ ps, q = p) →
    countEsc (drawRow 4294967040 ps).1 = 1 ∧
      (drawRow 4294967040 ps).2 = pixelWord p := by
  intro ps hne h
  match ps with
  | q :: ps' =>
    have hq : q = p := h q (List.mem_cons_self _ _)
    subst hq
    obtain ⟨h1, h2⟩ := drawRow_const q ps'
      fun q' hq' => h q' (List.mem_cons_of_mem _ hq')
    have hdiff : colorDiff 4294967040 q = true := (colorDiff_sentinel q).mpr hp
    simp only [drawRow, drawPixel, hdiff, if_true]
    exact ⟨by rw [countEsc_append, h1, countEsc_esc_glyphs], h2⟩

theorem drawRows_const (p : color_t) : ∀ rows : List (List color_t),
    (∀ row ∈ rows, ∀ q ∈ row, q = p) →
    countEsc (drawRows (pixelWord p) rows).1 = 0 ∧
      (drawRows (pixelWord p) rows).2 = pixelWord p := by
  intro rows
  induction rows with
  | nil => intro _; exact ⟨countEsc_nil, rfl⟩
  | cons r rs ih =>
    intro h
    obtain ⟨h1, h2⟩ := drawRow_const p r (h r (List.mem_cons_self _ _))
    obtain ⟨ih1, ih2⟩ := ih fun r' hr' => h r' (List.mem_cons_of_mem _ hr')
    simp only [drawRows, h2]
    constructor
    · rw [countEsc_append, countEsc_append, h1, countEsc_newline, ih1]
    · exact ih2

theorem drawRows_first (p : color_t) (hp : rgb24 p ≠ 16776960) :
    ∀ rows : List (List color_t), rows ≠ [] →
    (∀ row ∈ rows, row ≠ [] ∧ ∀ q ∈ row, q = p) →
    countEsc (drawRows 4294967040 rows).1 = 1 ∧
      (drawRows 4294967040 rows).2 = pixelWord p := by
  intro rows hne h
  match rows with
  | r :: rs =>
    obtain ⟨hr1, hr2⟩ := h r (List.mem_cons_self _ _)
    obtain ⟨h1, h2⟩ := drawRow_first p hp r hr1 hr2
    obtain ⟨ih1, ih2⟩ := drawRows_const p rs
      fun r' hr' => (h r' (List.mem_cons_of_mem _ hr')).2
    simp only [drawRows, h2]
    constructor
    · rw [countEsc_append, countEsc_append, h1, countEsc_newline, ih1]
    · exact ih2

theorem DG_DrawFrame_const (p : color_t) (hp : rgb24 p ≠ 16776960)
    (rows : List (List color_t)) (hne : rows ≠ [])
    (h : ∀ row ∈ rows, row ≠ [] ∧ ∀ q ∈ row, q = p) :
    countEsc (DG_DrawFrame rows) = 1 := by
  obtain ⟨h1, _⟩ := drawRows_first p hp rows hne h
  unfold DG_DrawFrame
  rw [countEsc_append, h1, countEsc_reset]

/-! ### Helper lemmas about the key decoder -/

theorem convertToDoomKey_consumes (b : Nat) (rest : List Nat) (hb : b ≠ 0) :
    ∃ pre, pre ≠ [] ∧ (∀ x ∈ pre, x ≠ 0) ∧
      pre ++ (convertToDoomKey (b :: rest)).2 = b :: rest := by
  by_cases h10 : b = 10
  · subst h10
    exact ⟨[10], by simp, by decide, by simp [convertToDoomKey]⟩
  by_cases h27 : b = 27
  · subst h27
    match rest with
    | [] => exact ⟨[27], by simp, by decide, by simp [convertToDoomKey]⟩
    | c1 :: rest1 =>
      by_cases h91 : c1 = 91
      · subst h91
        match rest1 with
        | [] => exact ⟨[27, 91], by simp, by decide, by simp [convertToDoomKey]⟩
        | c2 :: rest2 =>
          by_cases h65 : c2 = 65
          · subst h65
            exact ⟨[27, 91, 65], by simp, by decide, by simp [convertToDoomKey]⟩
          by_cases h66 : c2 = 66
          · subst h66
            exact ⟨[27, 91, 66], by simp, by decide, by simp [convertToDoomKey]⟩
          by_cases h67 : c2 = 67
          · subst h67
            exact ⟨[27, 91, 67], by simp, by decide, by simp [convertToDoomKey]⟩
          by_cases h68 : c2 = 68
          · subst h68
            exact ⟨[27, 91, 68], by simp, by decide, by simp [convertToDoomKey]⟩
          · exact ⟨[27, 91], by simp, by decide,
              by simp [convertToDoomKey, h65, h66, h67, h68]⟩
      · exact ⟨[27], by simp, by decide, by simp [convertToDoomKey, h91]⟩
  by_cases h32 : b = 32
  · subst h32
    exact ⟨[32], by simp, by decide, by simp [convertToDoomKey]⟩
  · exact ⟨[b], by simp, by simpa using hb,
      by simp [convertToDoomKey, h10, h27, h32]⟩

theorem convertToDoomKey_shrinks (b : Nat) (rest : List Nat) (hb : b ≠ 0) :
    (convertToDoomKey (b :: rest)).2.length < (b :: rest).length := by
  obtain ⟨pre, hne, _, happ⟩ := convertToDoomKey_consumes b rest hb
  have hl := congrArg List.length happ
  rw [List.length_append] at hl
  have hp : 0 < pre.length := List.length_pos.mpr hne
  simp only [List.length_cons] at hl ⊢
  omega

theorem decodeKeysAux_fuel : ∀ (fuel : Nat) (buf : List Nat),
    buf.length ≤ fuel → decodeKeysAux fuel buf = decodeKeys buf := by
  intro fuel
  induction fuel using Nat.strong_induction_on with
  | _ fuel ih =>
    intro buf hle
    rcases fuel with _ | fuel
    · have h0 : buf.length = 0 := Nat.le_zero.mp hle
      have : buf = [] := List.eq_nil_of_length_eq_zero h0
      subst this
      rfl
    · rcases buf with _ | ⟨b, rest⟩
      · rfl
      · by_cases hb : b = 0
        · subst hb
          simp [decodeKeys, decodeKeysAux]
        · simp only [List.length_cons] at hle
          have hs := convertToDoomKey_shrinks b rest hb
          simp only [List.length_cons] at hs
          show decodeKeysAux (fuel + 1) (b :: rest) = decodeKeys (b :: rest)
          unfold decodeKeys
          simp only [List.length_cons, decodeKeysAux, if_neg hb]
          rw [ih fuel (by omega) (convertToDoomKey (b :: rest)).2 (by omega),
            ih rest.length (by omega) (convertToDoomKey (b :: rest)).2 (by omega)]

theorem decodeKeysAux_length : ∀ (fuel : Nat) (buf : List Nat),
    (decodeKeysAux fuel buf).length ≤ fuel := by
  intro fuel
  induction fuel with
  | zero => intro buf; simp [decodeKeysAux]
  | succ fuel ih =>
    intro buf
    rcases buf with _ | ⟨b, rest⟩
    · simp [decodeKeysAux]
    · by_cases hb : b = 0
      · subst hb; simp [decodeKeysAux]
      · simp only [decodeKeysAux, if_neg hb, List.length_cons]
        have := ih (convertToDoomKey (b :: rest)).2
        omega

theorem decodeKeys_length (buf : List Nat) :
    (decodeKeys buf).length ≤ buf.length := by
  unfold decodeKeys
  exact decodeKeysAux_length buf.length buf

/-! ### Helper lemmas about press-event multiplicity -/

theorem countP_pressPass_eq_zero {k : Nat} :
    ∀ (cur prev : List Nat), k ∉ cur → (∀ m ∈ cur, m < 256) →
    (pressPass cur prev).countP (fun e => isPress e && (keyOf e == k)) = 0 := by
  intro cur prev hnot hb
  rw [List.countP_eq_zero]
  intro e he hcontra
  obtain ⟨k', hmem, _, rfl⟩ := mem_pressPass he
  have hk' : k' < 256 := hb k' hmem
  rw [Bool.and_eq_true, beq_iff_eq, keyOf_pressEvent hk'] at hcontra
  exact hnot (hcontra.2 ▸ hmem)

theorem countP_pressPass_le_one {k : Nat} (hk : k < 256) :
    ∀ (cur prev : List Nat), (∀ m ∈ cur, m < 256) →
    (pressPass cur prev).countP (fun e => isPress e && (keyOf e == k)) ≤ 1 := by
  intro cur
  induction cur with
  | nil => intro prev _; simp [pressPass]
  | cons c rest ih =>
    intro prev hb
    have hbrest : ∀ m ∈ rest, m < 256 :=
      fun m hm => hb m (List.mem_cons_of_mem _ hm)
    simp only [pressPass]
    split_ifs with h1 h2
    · exact ih prev hbrest
    · exact ih prev hbrest
    · rw [List.countP_cons]
      by_cases hck : c = k
      · subst hck
        rw [countP_pressPass_eq_zero rest prev h1 hbrest]
        split <;> simp
      · have hc : c < 256 := hb c (List.mem_cons_self _ _)
        have hpred : (isPress (pressEvent c) && (keyOf (pressEvent c) == k))
            = false := by
          rw [keyOf_pressEvent hc]
          simp [hck]
        rw [hpred]
        simp only [Bool.false_eq_true, if_false, Nat.add_zero]
        exact ih prev hbrest

theorem countP_releasePass_press (k : Nat) (prev cur : List Nat) :
    (releasePass prev cur).countP (fun e => isPress e && (keyOf e == k)) = 0 := by
  rw [List.countP_eq_zero]
  intro e he hcontra
  obtain ⟨k', _, _, rfl⟩ := mem_releasePass he
  rw [Bool.and_eq_true, isPress_releaseEvent] at hcontra
  exact absurd hcontra.1 (by simp)

/-! ### Claim theorems -/

/-- C1, counterexample: the claim states that a key decoded twice in one
burst and absent from the previous held-key sequence yields zero events;
on the code, with previous sequence empty and current sequence
`[97, 97]` (the burst "aa"), the poll emits exactly one event, the
pressed-event word 353 = 0x0100 | 97 for key 97: the duplicate skip in
the press pass only looks at later occurrences, so the last occurrence
is not skipped. -/
theorem c1_dup_burst_press_emitted :
    events [] [97, 97] = [353] ∧ isPress 353 = true ∧ keyOf 353 = 97 := by
  decide

/-- C1, amended: a key occurring exactly twice in the current held-key
sequence and absent from the previous one produces exactly one event,
a press (emitted at the key's last occurrence), and no release. -/
theorem c1_dup_burst_one_press (A : Nat) (prev : List Nat) (hA : A < 256)
    (hnot : A ∉ prev) (hb : ∀ m ∈ prev, m < 256) :
    (events prev [A, A]).filter (fun e => keyOf e == A) = [pressEvent A] ∧
    isPress (pressEvent A) = true ∧ keyOf (pressEvent A) = A := by
  have hpp : pressPass [A, A] prev = [pressEvent A] := by
    have h1 : A ∈ [A] := List.mem_singleton.mpr rfl
    simp only [pressPass, if_pos h1]
    simp [pressPass, hnot]
  have hflt : (releasePass prev [A, A]).filter (fun e => keyOf e == A) = [] := by
    rw [List.filter_eq_nil_iff]
    intro e he hcontra
    obtain ⟨k', hmem, _, rfl⟩ := mem_releasePass he
    rw [beq_iff_eq, keyOf_releaseEvent (hb k' hmem)] at hcontra
    exact hnot (hcontra ▸ hmem)
  refine ⟨?_, isPress_pressEvent A, keyOf_pressEvent hA⟩
  rw [events, List.filter_append, hpp, hflt]
  simp [List.filter_cons, keyOf_pressEvent hA]

/-- C1, witness for the amended claim at key 97 and empty previous
sequence. -/
theorem c1_dup_burst_one_press_witness :
    (97 : Nat) < 256 ∧ (97 : Nat) ∉ ([] : List Nat) ∧
    (events [] [97, 97]).filter (fun e => keyOf e == 97) = [pressEvent 97] :=
  ⟨by decide, by decide,
    (c1_dup_burst_one_press 97 [] (by decide) (by decide) (by decide)).1⟩

/-- C5: for previous held keys `[A, B]` and current held keys `[B, C]`
with `A`, `B`, `C` pairwise distinct, the poll emits exactly the two
events press-`C` then release-`A`, in that order; in general the queue
is the press pass followed by the release pass, every press-pass word
has a nonzero high byte and every release-pass word has a zero high
byte, so all presses of a tick precede all releases. -/
theorem c5_press_release_order (A B C : Nat) (hAB : A ≠ B) (hAC : A ≠ C)
    (hBC : B ≠ C) (hA : A < 256) (hC : C < 256) :
    events [A, B] [B, C] = [pressEvent C, releaseEvent A] ∧
    isPress (pressEvent C) = true ∧ keyOf (pressEvent C) = C ∧
    isPress (releaseEvent A) = false ∧ keyOf (releaseEvent A) = A ∧
    (∀ prev cur : List Nat,
      events prev cur = pressPass cur prev ++ releasePass prev cur ∧
      (∀ e ∈ pressPass cur prev, isPress e = true) ∧
      (∀ e ∈ releasePass prev cur, isPress e = false)) := by
  refine ⟨?_, isPress_pressEvent C, keyOf_pressEvent hC,
    isPress_releaseEvent A, keyOf_releaseEvent hA, ?_⟩
  · have h1 : pressPass [B, C] [A, B] = [pressEvent C] := by
      simp [pressPass, hBC, Ne.symm hAC, Ne.symm hBC]
    have h2 : releasePass [A, B] [B, C] = [releaseEvent A] := by
      simp [releasePass, hAB, hAC]
    rw [events, h1, h2]
    rfl
  · intro prev cur
    refine ⟨rfl, ?_, ?_⟩
    · intro e he
      obtain ⟨k, _, _, rfl⟩ := mem_pressPass he
      exact isPress_pressEvent k
    · intro e he
      obtain ⟨k, _, _, rfl⟩ := mem_releasePass he
      exact isPress_releaseEvent k

/-- C5, witness at A = 97, B = 98, C = 99. -/
theorem c5_press_release_order_witness :
    events [97, 98] [98, 99] = [pressEvent 99, releaseEvent 97] :=
  (c5_press_release_order 97 98 99 (by decide) (by decide) (by decide)
    (by decide) (by decide)).1

/-- C6: the event queue of one poll never holds a pressed and a released
event for the same key code (press words come from current-not-previous
keys, release words from previous-not-current keys), and a key present
in both the previous and the current held-key sequence produces no event
at all. -/
theorem c6_no_press_and_release_same_key (prev cur : List Nat)
    (hp : ∀ k ∈ prev, k < 256) (hc : ∀ k ∈ cur, k < 256) :
    (∀ e₁ ∈ events prev cur, ∀ e₂ ∈ events prev cur,
      isPress e₁ = true → isPress e₂ = false → keyOf e₁ ≠ keyOf e₂) ∧
    (∀ k, k ∈ prev → k ∈ cur → ∀ e ∈ events prev cur, keyOf e ≠ k) := by
  constructor
  · intro e₁ he₁ e₂ he₂ hp₁ hr₂
    simp only [events, List.mem_append] at he₁ he₂
    rcases he₁ with h1 | h1
    · rcases he₂ with h2 | h2
      · obtain ⟨k₂, _, _, rfl⟩ := mem_pressPass h2
        rw [isPress_pressEvent] at hr₂
        exact absurd hr₂ (by simp)
      · obtain ⟨k₁, hk₁c, hk₁p, rfl⟩ := mem_pressPass h1
        obtain ⟨k₂, hk₂p, _, rfl⟩ := mem_releasePass h2
        rw [keyOf_pressEvent (hc k₁ hk₁c), keyOf_releaseEvent (hp k₂ hk₂p)]
        intro heq
        exact hk₁p (heq ▸ hk₂p)
    · obtain ⟨k₁, _, _, rfl⟩ := mem_releasePass h1
      rw [isPress_releaseEvent] at hp₁
      exact absurd hp₁ (by simp)
  · intro k hkp hkc e he
    simp only [events, List.mem_append] at he
    rcases he with h1 | h1
    · obtain ⟨k', hk'c, hk'p, rfl⟩ := mem_pressPass h1
      rw [keyOf_pressEvent (hc k' hk'c)]
      intro heq
      exact hk'p (heq ▸ hkp)
    · obtain ⟨k', hk'p, hk'c, rfl⟩ := mem_releasePass h1
      rw [keyOf_releaseEvent (hp k' hk'p)]
      intro heq
      exact hk'c (heq ▸ hkc)

/-- C6, witness: for previous `[97]` and current `[98]` the queue is
`[354, 97]`; the press word 354 and the release word 97 carry different
key codes. -/
theorem c6_no_press_and_release_same_key_witness :
    isPress 354 = true ∧ isPress 97 = false ∧ keyOf 354 ≠ keyOf 97 :=
  ⟨by decide, by decide,
    (c6_no_press_and_release_same_key [97] [98] (by decide) (by decide)).1
      354 (by decide) 97 (by decide) (by decide) (by decide)⟩

/-- C7, counterexample: the claim bounds one poll's event count by
2 x 15 - 1 = 29; with 15 previously held keys and 15 entirely different
currently held keys (both reachable, e.g. from the bursts
"abcdefghijklmno" and "pqrstuvwxyz{|}~") the poll emits all 15 presses
and all 15 releases: 30 events. -/
theorem c7_thirty_events :
    ([97, 98, 99, 100, 101, 102, 103, 104, 105, 106, 107, 108, 109, 110,
      111] : List Nat).length = 15 ∧
    ([112, 113, 114, 115, 116, 117, 118, 119, 120, 121, 122, 123, 124, 125,
      126] : List Nat).length = 15 ∧
    (events
      [97, 98, 99, 100, 101, 102, 103, 104, 105, 106, 107, 108, 109, 110,
        111]
      [112, 113, 114, 115, 116, 117, 118, 119, 120, 121, 122, 123, 124, 125,
        126]).length = 30 := by
  decide

/-- C7, amended: with both held-key sequences capped at 15 keys, one poll
emits at most 2 x 15 = 30 events (the press pass emits at most one word
per current key, the release pass at most one word per previous key);
the 31-slot event buffer holds them plus its NUL terminator. -/
theorem c7_events_le_thirty (prev cur : List Nat)
    (hp : prev.length ≤ 15) (hc : cur.length ≤ 15) :
    (events prev cur).length ≤ 30 := by
  have h1 := pressPass_length_le cur prev
  have h2 := releasePass_length_le prev cur
  rw [events, List.length_append]
  omega

/-- C7, witness for the amended bound at previous `[97]`, current `[98]`. -/
theorem c7_events_le_thirty_witness :
    ([97] : List Nat).length ≤ 15 ∧ (events [97] [98]).length ≤ 30 :=
  ⟨by decide, c7_events_le_thirty [97] [98] (by decide) (by decide)⟩

/-- C8, counterexample: the claim states the held-key sequence built by
the decode pass is duplicate-free for every raw burst; the burst
`[97, 97]` ("aa") decodes to `[97, 97]`, which contains 97 twice. -/
theorem c8_decode_keeps_duplicates :
    decodeKeys [97, 97] = [97, 97] ∧ ¬(decodeKeys [97, 97]).Nodup := by
  decide

/-- C8, amended: the decode pass appends every decoded key, so the
held-key sequence can contain duplicates; deduplication happens only at
event generation, where the press pass emits at most one pressed-event
word per key code per poll. -/
theorem c8_at_most_one_press_per_key (prev cur : List Nat) (k : Nat)
    (hk : k < 256) (hc : ∀ m ∈ cur, m < 256) :
    ((events prev cur).countP fun e => isPress e && (keyOf e == k)) ≤ 1 := by
  rw [events, List.countP_append, countP_releasePass_press]
  have := countP_pressPass_le_one hk cur prev hc
  omega

/-- C8, witness for the amended claim at key 97, current sequence
`[97, 97]`. -/
theorem c8_at_most_one_press_per_key_witness :
    (97 : Nat) < 256 ∧
      ((events [] [97, 97]).countP fun e => isPress e && (keyOf e == 97)) ≤ 1 :=
  ⟨by decide,
    c8_at_most_one_press_per_key [] [97, 97] 97 (by decide) (by decide)⟩

/-- C2, counterexample: the claim states two consecutive renders of
identical all-same-color frames emit one color escape in total; on the
code the color state is the local `uint32_t color = 0xFFFFFF00;`,
re-initialized on every `DG_DrawFrame` call, so an all-black 1 x 1 frame
rendered twice emits one escape per frame, two in total. -/
theorem c2_identical_frames_two_escapes :
    countEsc (DG_DrawFrame [[color_t.mk 0 0 0 0]] ++
      DG_DrawFrame [[color_t.mk 0 0 0 0]]) = 2 := by
  decide

/-- C2, amended: the color state does not persist across frames; it is
reset to the sentinel 0xFFFFFF00 on every call, so each render of a
nonempty frame whose pixels all equal one color (with RGB different
from the sentinel's low 24 bits 0xFFFF00) emits exactly one color
escape, and two consecutive identical renders emit two in total. -/
theorem c2_per_frame_one_escape (p : color_t) (rows : List (List color_t))
    (hne : rows ≠ []) (h : ∀ row ∈ rows, row ≠ [] ∧ ∀ q ∈ row, q = p)
    (hp : rgb24 p ≠ 16776960) :
    countEsc (DG_DrawFrame rows) = 1 ∧
      countEsc (DG_DrawFrame rows ++ DG_DrawFrame rows) = 2 := by
  have h1 := DG_DrawFrame_const p hp rows hne h
  exact ⟨h1, by rw [countEsc_append, h1]⟩

/-- C2, witness for the amended claim on a 1 x 1 all-black frame with
alpha byte 7. -/
theorem c2_per_frame_one_escape_witness :
    rgb24 (color_t.mk 0 0 0 7) ≠ 16776960 ∧
      countEsc (DG_DrawFrame [[color_t.mk 0 0 0 7]] ++
        DG_DrawFrame [[color_t.mk 0 0 0 7]]) = 2 :=
  ⟨by decide,
    (c2_per_frame_one_escape (color_t.mk 0 0 0 7) [[color_t.mk 0 0 0 7]]
      (by decide) (by decide) (by decide)).2⟩

/-- C3: the claim says the emitted glyph is always one of the seven ramp
characters of `" .-+1x@"`. `GRAD_LEN` is 8, the full array size
including the terminating NUL, so for channel sum 765 (pixel
(255,255,255); any sum of at least 671 behaves alike) the glyph index is
765 * 8 / 766 = 7 and the code emits `grad[7]` — the NUL terminator,
which is none of the seven ramp characters and truncates the `fputs` of
the frame.  The glyph is still a function of the channel sum alone, as
`glyphIndex` shows. -/
theorem c3_grad_terminator_bug :
    glyphIndex 255 255 255 = 7 ∧ glyphByte 255 255 255 = 0 ∧
      (∀ c ∈ grad.take 7, c ≠ 0) ∧ GRAD_LEN = grad.length := by
  decide

/-- C4, counterexample: the claim states the sentinel color state makes
the first pixel of the first frame emit a color escape for every RGB
value; the sentinel 0xFFFFFF00 has low 24 bits r = 255, g = 255, b = 0,
so a first pixel of exactly that color compares equal and emits no
escape. -/
theorem c4_sentinel_yellow_no_escape :
    rgb24 (color_t.mk 0 255 255 0) = 16776960 ∧
      countEsc (DG_DrawFrame [[color_t.mk 0 255 255 0]]) = 0 := by
  decide

/-- C4, amended: the first pixel processed emits a color escape for
every RGB value except r = 255, g = 255, b = 0 (the low 24 bits of the
sentinel 0xFFFFFF00). -/
theorem c4_first_pixel_escape (p : color_t) (hp : rgb24 p ≠ 16776960) :
    colorDiff 4294967040 p = true ∧ countEsc (DG_DrawFrame [[p]]) = 1 := by
  refine ⟨(colorDiff_sentinel p).mpr hp, ?_⟩
  exact DG_DrawFrame_const p hp [[p]] (by simp) (by simp)

/-- C4, witness for the amended claim at pixel r = g = b = 9. -/
theorem c4_first_pixel_escape_witness :
    rgb24 (color_t.mk 9 9 9 0) ≠ 16776960 ∧
      countEsc (DG_DrawFrame [[color_t.mk 9 9 9 0]]) = 1 :=
  ⟨by decide, (c4_first_pixel_escape (color_t.mk 9 9 9 0) (by decide)).2⟩

/-- C9, counterexample: the claim states every exit path of the poll
restores the altered terminal mode before returning or terminating;
when the `read` call fails, the `CALL` macro invokes `I_Error`
immediately and the process terminates with the raw mode (canonical
mode disabled, zero minimum characters, zero timeout) still installed,
not the prior mode. -/
theorem c9_read_failure_leaves_raw_mode :
    modeAfter (readInputPosix (termios.mk true 1 1 0) true true false true
        true) = termios.mk false 0 0 0 ∧
      termios.mk false 0 0 0 ≠ termios.mk true 1 1 0 := by
  decide

/-- C9, amended: the prior terminal mode is in effect on the successful
path and on failures occurring before the raw mode is installed or
after it is restored (`tcgetattr`, the installing `tcsetattr`,
`tcflush`); but when the `read` or the restoring `tcsetattr` fails, the
process terminates with the raw mode still active. -/
theorem c9_mode_restore_paths (t0 : termios) :
    (∀ a b c d : Bool, modeAfter (readInputPosix t0 false a b c d) = t0) ∧
    (∀ b c d : Bool, modeAfter (readInputPosix t0 true false b c d) = t0) ∧
    (∀ c d : Bool,
      modeAfter (readInputPosix t0 true true false c d) = rawModeOf t0) ∧
    (∀ d : Bool,
      modeAfter (readInputPosix t0 true true true false d) = rawModeOf t0) ∧
    modeAfter (readInputPosix t0 true true true true false) = t0 ∧
    readInputPosix t0 true true true true true = pollExit.ok t0 :=
  ⟨fun _ _ _ _ => rfl, fun _ _ _ => rfl, fun _ _ => rfl, fun _ => rfl,
    rfl, rfl⟩

/-- C10: for every raw buffer of at most 15 bytes the decode loop
terminates after at most as many iterations as there are bytes, building
at most 15 held keys (so the 16-byte `input_buffer` keeps its NUL
terminator); the fuel-stability conjunct makes the termination argument
explicit (extra fuel never changes the result, because every
`convertToDoomKey` call consumes at least one byte), and the last
conjunct shows each decoder call consumes at least one byte, all
consumed bytes being nonzero, so the cursor never passes the NUL
terminator. -/
theorem c10_decode_bounded (buf : List Nat) (h : buf.length ≤ 15) :
    (decodeKeys buf).length ≤ 15 ∧
    (∀ extra : Nat, decodeKeysAux (buf.length + extra) buf = decodeKeys buf) ∧
    (∀ b rest, b ≠ 0 →
      ∃ pre, pre ≠ [] ∧ (∀ x ∈ pre, x ≠ 0) ∧
        pre ++ (convertToDoomKey (b :: rest)).2 = b :: rest) :=
  ⟨Nat.le_trans (decodeKeys_length buf) h,
    fun extra => decodeKeysAux_fuel (buf.length + extra) buf (by omega),
    fun b rest hb => convertToDoomKey_consumes b rest hb⟩

/-- C10, witness on the burst ESC `[` `A`. -/
theorem c10_decode_bounded_witness :
    ([27, 91, 65] : List Nat).length ≤ 15 ∧
      (decodeKeys [27, 91, 65]).length ≤ 15 :=
  ⟨by decide, (c10_decode_bounded [27, 91, 65] (by decide)).1⟩
